import Mathlib

/-!
Verification development for the otopi installer orchestration core
(`src/otopi/context.py`).  The Python code is shallowly embedded: the
sequence builder (`Context.buildSequence` and its inner `_doit` repair
passes), the sequence runner (`Context.runSequence`,
`Context._executeMethod`, `Context.notify`), the environment dump
(`Context.dumpEnvironment`), the path resolver (`Context.resolveFile`)
and the plugin-group loader (`Context.loadPlugins`) are translated into
executable Lean functions, and the specification's claims about them are
proved or refuted below.
-/

namespace Otopi

/-- Handler metadata record collected from plugins by `buildSequence`
(`decoration_event` dictionaries): symbolic `name`, `stage` identifier,
`priority`, and the symbolic `before` / `after` constraint sets.
`methodName` stands for the fully qualified method name computed by
`Context._methodName`, used only as the initial tie-break sort key. -/
structure Metadata where
  name : String
  stage : Nat
  priority : Int
  before : List String
  after : List String
  methodName : String
deriving DecidableEq, Repr

/-- Python `list.insert(i, x)`: insert `x` so that it ends up at index
`i`; an index at or beyond the length appends at the end. -/
def pyInsert {α : Type} (i : Nat) (x : α) : List α → List α
  | [] => [x]
  | a :: t =>
    match i with
    | 0 => x :: a :: t
    | i + 1 => a :: pyInsert i x t

/-- Indices (from base `i`) of the records of `rest` whose `name` is in
`names`; `candidates l names` are the indices the generator inside
`_indexOfName` enumerates. -/
def candidatesFrom (names : List String) : Nat → List Metadata → List Nat
  | _, [] => []
  | i, m :: rest =>
    if m.name ∈ names then i :: candidatesFrom names (i + 1) rest
    else candidatesFrom names (i + 1) rest

/-- Indices of the elements of `l` whose `name` is in `names`. -/
def candidates (l : List Metadata) (names : List String) : List Nat :=
  candidatesFrom names 0 l

/-- Python `min` over a possibly empty sequence of indices: `none` models
the `ValueError` branch of `_indexOfName`. -/
def aggMin : List Nat → Option Nat
  | [] => none
  | x :: xs => some (xs.foldl Nat.min x)

/-- Python `max` over a possibly empty sequence of indices. -/
def aggMax : List Nat → Option Nat
  | [] => none
  | x :: xs => some (xs.foldl Nat.max x)

/-- The scan of one `_doit` pass, from index `i` over the suffix `rest`
of the full list `l`: find the first record whose aggregated candidate
index satisfies `cmp`, returning `(index, candidateindex, metadata)`. -/
def findMoveFrom (l : List Metadata) (what : Metadata → List String)
    (cmp : Nat → Nat → Bool) (agg : List Nat → Option Nat) :
    Nat → List Metadata → Option (Nat × Nat × Metadata)
  | _, [] => none
  | i, m :: rest =>
    match agg (candidates l (what m)) with
    | some c =>
      if cmp c i then some (i, c, m)
      else findMoveFrom l what cmp agg (i + 1) rest
    | none => findMoveFrom l what cmp agg (i + 1) rest

/-- First violating record of `l` together with its move target, as found
by the `for index, metadata in enumerate(l)` scan of `_doit`. -/
def findMove (l : List Metadata) (what : Metadata → List String)
    (cmp : Nat → Nat → Bool) (agg : List Nat → Option Nat) :
    Option (Nat × Nat × Metadata) :=
  findMoveFrom l what cmp agg 0 l

/-- One repair move of `_doit`: `l.insert(candidateindex + offset,
metadata)` followed by `del l[index + 1]` when `candidateindex < index`,
else `del l[index]`. -/
def applyMove (l : List Metadata) (index c offset : Nat) (m : Metadata) :
    List Metadata :=
  let l1 := pyInsert (c + offset) m l
  if c < index then l1.eraseIdx (index + 1) else l1.eraseIdx index

/-- The `for limit in range(400)` loop of `_doit` with `fuel` iterations
remaining: each iteration performs at most one move; `none` models the
`RuntimeError('Sequence build loop detected')` raised when the last
iteration still modified the list.  The boolean accumulates
`everModified`. -/
def doitAux (what : Metadata → List String) (cmp : Nat → Nat → Bool)
    (agg : List Nat → Option Nat) (offset : Nat) :
    Nat → List Metadata → Bool → Option (List Metadata × Bool)
  | 0, _, _ => none
  | fuel + 1, l, ever =>
    match findMove l what cmp agg with
    | none => some (l, ever)
    | some (i, c, m) =>
      doitAux what cmp agg offset fuel (applyMove l i c offset m) true

/-- One full `_doit` sub-pass (bounded by 400 iterations). -/
def doit (what : Metadata → List String) (cmp : Nat → Nat → Bool)
    (agg : List Nat → Option Nat) (offset : Nat) (l : List Metadata) :
    Option (List Metadata × Bool) :=
  doitAux what cmp agg offset 400 l false

/-- The `before` sub-pass: `_doit(tmplist, 'before', operator.lt, min, 0)`. -/
def beforePass (l : List Metadata) : Option (List Metadata × Bool) :=
  doit (fun m => m.before) (fun c i => decide (c < i)) aggMin 0 l

/-- The `after` sub-pass: `_doit(tmplist, 'after', operator.gt, max, 1)`. -/
def afterPass (l : List Metadata) : Option (List Metadata × Bool) :=
  doit (fun m => m.after) (fun c i => decide (c > i)) aggMax 1 l

/-- The `for x in range(400)` alternation of the two sub-passes.  Python
short-circuit: `modified or _doit(...)` runs the `after` pass only when
the `before` pass did not modify.  `none` models the outer
`RuntimeError('Sequence build loop detected')`. -/
def buildLoopAux : Nat → List Metadata → Option (List Metadata)
  | 0, _ => none
  | fuel + 1, l =>
    match beforePass l with
    | none => none
    | some (l1, modB) =>
      if modB then buildLoopAux fuel l1
      else
        match afterPass l1 with
        | none => none
        | some (l2, modA) =>
          if modA then buildLoopAux fuel l2 else some l2

/-- Constraint repair of `buildSequence`, bounded at 400 outer rounds. -/
def buildLoop (l : List Metadata) : Option (List Metadata) :=
  buildLoopAux 400 l

/-- `sequence.setdefault(m['stage'], []).append(m)`: append `m` to the
bucket of stage `s`, creating the bucket at the end (Python dicts keep
insertion order) when absent. -/
def addToBucket : List (Nat × List Metadata) → Nat → Metadata →
    List (Nat × List Metadata)
  | [], s, m => [(s, [m])]
  | (k, b) :: rest, s, m =>
    if k = s then (k, b ++ [m]) :: rest
    else (k, b) :: addToBucket rest s m

/-- Partition the repaired flat list into per-stage buckets, preserving
relative order, exactly as the `for m in tmplist` loop does. -/
def buildBuckets (l : List Metadata) : List (Nat × List Metadata) :=
  l.foldl (fun acc m => addToBucket acc m.stage m) []

/-- Lexicographic comparison of character lists by code point. -/
def strLeAux : List Char → List Char → Bool
  | [], _ => true
  | _ :: _, [] => false
  | c :: cs, d :: ds =>
    if c.toNat < d.toNat then true
    else if d.toNat < c.toNat then false
    else strLeAux cs ds

/-- Python string comparison: lexicographic by code point. -/
def strLe (a b : String) : Bool := strLeAux a.data b.data

/-- Stable insertion of `x` into an already sorted list: `x` is placed
before the first element it compares `le` to, so earlier elements of the
original list stay before equal later ones. -/
def pyInsertSorted {α : Type} (le : α → α → Bool) (x : α) :
    List α → List α
  | [] => [x]
  | y :: t => if le x y then x :: y :: t else y :: pyInsertSorted le x t

/-- Stable sort.  Python's `list.sort` is stable, and the output of a
stable sort under a total preorder is unique, so this structurally
recursive insertion sort is a faithful model of it. -/
def pySort {α : Type} (le : α → α → Bool) : List α → List α
  | [] => []
  | x :: t => pyInsertSorted le x (pySort le t)

/-- The initial stable ordering of `buildSequence` with
`RANDOMIZE_EVENTS` false: sort by fully qualified method name, then a
stable sort by priority. -/
def initialOrder (l : List Metadata) : List Metadata :=
  pySort (fun a b => decide (a.priority ≤ b.priority))
    (pySort (fun a b => strLe a.methodName b.methodName) l)

/-- `Context.buildSequence` for a collected metadata list: initial sort,
constraint repair, stage bucketing.  `none` models the raised
`RuntimeError('Sequence build loop detected')`. -/
def buildSequence (l : List Metadata) :
    Option (List (Nat × List Metadata)) :=
  (buildLoop (initialOrder l)).map buildBuckets

theorem pyInsert_perm {α : Type} (x : α) :
    ∀ (i : Nat) (l : List α), (pyInsert i x l).Perm (x :: l) := by
  intro i l
  induction l generalizing i with
  | nil => simp [pyInsert]
  | cons a t ih =>
    cases i with
    | zero => simp [pyInsert]
    | succ i =>
      simpa [pyInsert] using ((ih i).cons a).trans (List.Perm.swap x a t)

theorem pyInsert_getElem_lt {α : Type} (x : α) :
    ∀ (n i : Nat) (l : List α), i < n → i < l.length →
      (pyInsert n x l)[i]? = l[i]? := by
  intro n i l
  induction l generalizing n i with
  | nil => intro _ h; simp at h
  | cons a t ih =>
    intro hin hil
    cases n with
    | zero => omega
    | succ n =>
      cases i with
      | zero => simp [pyInsert]
      | succ i =>
        simp only [pyInsert, List.getElem?_cons_succ]
        exact ih n i (by omega) (by simpa using hil)

theorem pyInsert_getElem_shift {α : Type} (x : α) :
    ∀ (n i : Nat) (l : List α), n ≤ i → n ≤ l.length →
      (pyInsert n x l)[i + 1]? = l[i]? := by
  intro n i l
  induction l generalizing n i with
  | nil =>
    intro hni hn
    simp only [List.length_nil, Nat.le_zero] at hn
    subst hn
    simp [pyInsert]
  | cons a t ih =>
    intro hni hn
    cases n with
    | zero => simp [pyInsert]
    | succ n =>
      cases i with
      | zero => omega
      | succ i =>
        simp only [pyInsert, List.getElem?_cons_succ]
        exact ih n i (by omega) (by simpa using hn)

theorem eraseIdx_cons_perm {α : Type} :
    ∀ (l : List α) (k : Nat) (m : α), l[k]? = some m →
      l.Perm (m :: l.eraseIdx k) := by
  intro l
  induction l with
  | nil => intro k m h; simp at h
  | cons a t ih =>
    intro k m h
    cases k with
    | zero =>
      simp only [List.getElem?_cons_zero, Option.some.injEq] at h
      subst h
      simp [List.eraseIdx]
    | succ k =>
      simp only [List.getElem?_cons_succ] at h
      simpa [List.eraseIdx] using ((ih k m h).cons a).trans (List.Perm.swap m a _)

theorem mem_candidatesFrom {names : List String} :
    ∀ (l : List Metadata) (i k : Nat), k ∈ candidatesFrom names i l →
      ∃ j m, l[j]? = some m ∧ m.name ∈ names ∧ k = i + j := by
  intro l
  induction l with
  | nil => intro i k h; simp [candidatesFrom] at h
  | cons a t ih =>
    intro i k h
    by_cases ha : a.name ∈ names
    · simp only [candidatesFrom, if_pos ha, List.mem_cons] at h
      rcases h with h | h
      · exact ⟨0, a, by simp, ha, by omega⟩
      · obtain ⟨j, m, hj, hm, hk⟩ := ih (i + 1) k h
        exact ⟨j + 1, m, by simpa using hj, hm, by omega⟩
    · simp only [candidatesFrom, if_neg ha] at h
      obtain ⟨j, m, hj, hm, hk⟩ := ih (i + 1) k h
      exact ⟨j + 1, m, by simpa using hj, hm, by omega⟩

theorem candidatesFrom_mem {names : List String} :
    ∀ (l : List Metadata) (i j : Nat) (m : Metadata), l[j]? = some m →
      m.name ∈ names → (i + j) ∈ candidatesFrom names i l := by
  intro l
  induction l with
  | nil => intro i j m h; simp at h
  | cons a t ih =>
    intro i j m h hm
    cases j with
    | zero =>
      simp only [List.getElem?_cons_zero, Option.some.injEq] at h
      subst h
      simp [candidatesFrom, hm]
    | succ j =>
      simp only [List.getElem?_cons_succ] at h
      have := ih (i + 1) j m h hm
      by_cases ha : a.name ∈ names
      · simp only [candidatesFrom, if_pos ha, List.mem_cons]
        right
        simpa [Nat.add_assoc, Nat.add_comm 1 j] using this
      · simp only [candidatesFrom, if_neg ha]
        simpa [Nat.add_assoc, Nat.add_comm 1 j] using this

theorem foldl_min_le_init : ∀ (xs : List Nat) (a : Nat), xs.foldl Nat.min a ≤ a := by
  intro xs
  induction xs with
  | nil => intro a; simp
  | cons x t ih =>
    intro a
    calc t.foldl Nat.min (Nat.min a x) ≤ Nat.min a x := ih _
    _ ≤ a := Nat.min_le_left a x

theorem foldl_min_le_mem :
    ∀ (xs : List Nat) (a k : Nat), k ∈ xs → xs.foldl Nat.min a ≤ k := by
  intro xs
  induction xs with
  | nil => intro a k h; simp at h
  | cons x t ih =>
    intro a k h
    rcases List.mem_cons.mp h with h | h
    · subst h
      calc t.foldl Nat.min (Nat.min a k) ≤ Nat.min a k := foldl_min_le_init t _
      _ ≤ k := Nat.min_le_right a k
    · exact ih _ k h

theorem foldl_min_mem : ∀ (xs : List Nat) (a : Nat), xs.foldl Nat.min a ∈ a :: xs := by
  intro xs
  induction xs with
  | nil => intro a; simp
  | cons x t ih =>
    intro a
    simp only [List.foldl_cons]
    have := ih (Nat.min a x)
    rcases List.mem_cons.mp this with h | h
    · rw [h]
      have hm : Nat.min a x = a ∨ Nat.min a x = x := by
        by_cases hax : a ≤ x
        · simp [Nat.min, hax]
        · simp [Nat.min, hax]
          omega
      rcases hm with hm | hm <;> rw [hm] <;> simp
    · simp [h]

theorem init_le_foldl_max : ∀ (xs : List Nat) (a : Nat), a ≤ xs.foldl Nat.max a := by
  intro xs
  induction xs with
  | nil => intro a; simp
  | cons x t ih =>
    intro a
    calc a ≤ Nat.max a x := Nat.le_max_left a x
    _ ≤ t.foldl Nat.max (Nat.max a x) := ih _

theorem mem_le_foldl_max :
    ∀ (xs : List Nat) (a k : Nat), k ∈ xs → k ≤ xs.foldl Nat.max a := by
  intro xs
  induction xs with
  | nil => intro a k h; simp at h
  | cons x t ih =>
    intro a k h
    rcases List.mem_cons.mp h with h | h
    · subst h
      calc k ≤ Nat.max a k := Nat.le_max_right a k
      _ ≤ t.foldl Nat.max (Nat.max a k) := init_le_foldl_max t _
    · exact ih _ k h

theorem foldl_max_mem : ∀ (xs : List Nat) (a : Nat), xs.foldl Nat.max a ∈ a :: xs := by
  intro xs
  induction xs with
  | nil => intro a; simp
  | cons x t ih =>
    intro a
    simp only [List.foldl_cons]
    have := ih (Nat.max a x)
    rcases List.mem_cons.mp this with h | h
    · rw [h]
      have hm : Nat.max a x = a ∨ Nat.max a x = x := by
        by_cases hax : a ≤ x
        · simp [Nat.max, hax]
        · simp [Nat.max, hax]
          omega
      rcases hm with hm | hm <;> rw [hm] <;> simp
    · simp [h]

theorem aggMin_le {xs : List Nat} {c : Nat} (h : aggMin xs = some c) :
    ∀ k ∈ xs, c ≤ k := by
  intro k hk
  cases xs with
  | nil => simp [aggMin] at h
  | cons x t =>
    simp only [aggMin, Option.some.injEq] at h
    subst h
    rcases List.mem_cons.mp hk with h | h
    · subst h; exact foldl_min_le_init t k
    · exact foldl_min_le_mem t x k h

theorem aggMin_isSome {xs : List Nat} (h : xs ≠ []) : (aggMin xs).isSome := by
  cases xs with
  | nil => exact absurd rfl h
  | cons x t => simp [aggMin]

theorem aggMax_ge {xs : List Nat} {c : Nat} (h : aggMax xs = some c) :
    ∀ k ∈ xs, k ≤ c := by
  intro k hk
  cases xs with
  | nil => simp [aggMax] at h
  | cons x t =>
    simp only [aggMax, Option.some.injEq] at h
    subst h
    rcases List.mem_cons.mp hk with h | h
    · subst h; exact init_le_foldl_max t k
    · exact mem_le_foldl_max t x k h

theorem aggMax_isSome {xs : List Nat} (h : xs ≠ []) : (aggMax xs).isSome := by
  cases xs with
  | nil => exact absurd rfl h
  | cons x t => simp [aggMax]

theorem aggMin_mem {xs : List Nat} {c : Nat} (h : aggMin xs = some c) : c ∈ xs := by
  cases xs with
  | nil => simp [aggMin] at h
  | cons x t =>
    simp only [aggMin, Option.some.injEq] at h
    subst h
    exact foldl_min_mem t x

theorem aggMax_mem {xs : List Nat} {c : Nat} (h : aggMax xs = some c) : c ∈ xs := by
  cases xs with
  | nil => simp [aggMax] at h
  | cons x t =>
    simp only [aggMax, Option.some.injEq] at h
    subst h
    exact foldl_max_mem t x

theorem findMoveFrom_none {l : List Metadata} {what : Metadata → List String}
    {cmp : Nat → Nat → Bool} {agg : List Nat → Option Nat} :
    ∀ (rest : List Metadata) (i : Nat),
      findMoveFrom l what cmp agg i rest = none →
      ∀ (j : Nat) (m : Metadata), rest[j]? = some m →
      ∀ c, agg (candidates l (what m)) = some c → cmp c (i + j) = false := by
  intro rest
  induction rest with
  | nil => intro i _ j m hj; simp at hj
  | cons a t ih =>
    intro i h j m hj c hc
    cases hagg : agg (candidates l (what a)) with
    | none =>
      simp only [findMoveFrom, hagg] at h
      cases j with
      | zero =>
        simp only [List.getElem?_cons_zero, Option.some.injEq] at hj
        subst hj
        rw [hagg] at hc
        exact absurd hc (by simp)
      | succ j =>
        simp only [List.getElem?_cons_succ] at hj
        have := ih (i + 1) h j m hj c hc
        simpa [Nat.add_assoc, Nat.add_comm 1 j] using this
    | some c0 =>
      simp only [findMoveFrom, hagg] at h
      by_cases hcmp : cmp c0 i
      · rw [if_pos hcmp] at h; exact absurd h (by simp)
      · rw [if_neg hcmp] at h
        cases j with
        | zero =>
          simp only [List.getElem?_cons_zero, Option.some.injEq] at hj
          subst hj
          rw [hagg] at hc
          injection hc with hc
          subst hc
          simpa using Bool.not_eq_true _ ▸ hcmp
        | succ j =>
          simp only [List.getElem?_cons_succ] at hj
          have := ih (i + 1) h j m hj c hc
          simpa [Nat.add_assoc, Nat.add_comm 1 j] using this

theorem findMoveFrom_some {l : List Metadata} {what : Metadata → List String}
    {cmp : Nat → Nat → Bool} {agg : List Nat → Option Nat} :
    ∀ (rest : List Metadata) (i idx c : Nat) (m : Metadata),
      findMoveFrom l what cmp agg i rest = some (idx, c, m) →
      ∃ j, rest[j]? = some m ∧ idx = i + j ∧
        agg (candidates l (what m)) = some c ∧ cmp c idx = true := by
  intro rest
  induction rest with
  | nil => intro i idx c m h; simp [findMoveFrom] at h
  | cons a t ih =>
    intro i idx c m h
    cases hagg : agg (candidates l (what a)) with
    | none =>
      simp only [findMoveFrom, hagg] at h
      obtain ⟨j, hj, hidx, hg, hcmp⟩ := ih (i + 1) idx c m h
      exact ⟨j + 1, by simpa using hj, by omega, hg, hcmp⟩
    | some c0 =>
      simp only [findMoveFrom, hagg] at h
      by_cases hcmp : cmp c0 i
      · rw [if_pos hcmp] at h
        simp only [Option.some.injEq, Prod.mk.injEq] at h
        obtain ⟨h1, h2, h3⟩ := h
        subst h1; subst h2; subst h3
        exact ⟨0, by simp, by omega, hagg, hcmp⟩
      · rw [if_neg hcmp] at h
        obtain ⟨j, hj, hidx, hg, hcmp'⟩ := ih (i + 1) idx c m h
        exact ⟨j + 1, by simpa using hj, by omega, hg, hcmp'⟩

theorem doitAux_ever {what : Metadata → List String} {cmp : Nat → Nat → Bool}
    {agg : List Nat → Option Nat} {offset : Nat} :
    ∀ (fuel : Nat) (l l' : List Metadata) (ev : Bool),
      doitAux what cmp agg offset fuel l true = some (l', ev) → ev = true := by
  intro fuel
  induction fuel with
  | zero => intro l l' ev h; simp [doitAux] at h
  | succ fuel ih =>
    intro l l' ev h
    cases hf : findMove l what cmp agg with
    | none =>
      simp only [doitAux, hf, Option.some.injEq, Prod.mk.injEq] at h
      exact h.2.symm
    | some v =>
      obtain ⟨i, c, m⟩ := v
      simp only [doitAux, hf] at h
      exact ih _ _ _ h

theorem doitAux_fixed {what : Metadata → List String} {cmp : Nat → Nat → Bool}
    {agg : List Nat → Option Nat} {offset : Nat} {fuel : Nat}
    {l l' : List Metadata}
    (h : doitAux what cmp agg offset fuel l false = some (l', false)) :
    l' = l ∧ findMove l what cmp agg = none := by
  cases fuel with
  | zero => simp [doitAux] at h
  | succ fuel =>
    cases hf : findMove l what cmp agg with
    | none =>
      simp only [doitAux, hf, Option.some.injEq, Prod.mk.injEq] at h
      exact ⟨h.1.symm, rfl⟩
    | some v =>
      obtain ⟨i, c, m⟩ := v
      simp only [doitAux, hf] at h
      exact absurd (doitAux_ever fuel _ _ _ h) (by simp)

theorem buildLoopAux_fixed :
    ∀ (fuel : Nat) (l r : List Metadata), buildLoopAux fuel l = some r →
      findMove r (fun m => m.before) (fun c i => decide (c < i)) aggMin = none ∧
      findMove r (fun m => m.after) (fun c i => decide (c > i)) aggMax = none := by
  intro fuel
  induction fuel with
  | zero => intro l r h; simp [buildLoopAux] at h
  | succ fuel ih =>
    intro l r h
    cases hb : beforePass l with
    | none => simp [buildLoopAux, hb] at h
    | some p =>
      obtain ⟨l1, modB⟩ := p
      simp only [buildLoopAux, hb] at h
      cases modB with
      | true => exact ih _ _ (by simpa using h)
      | false =>
        simp only [if_neg (by simp : ¬ (false = true))] at h
        cases ha : afterPass l1 with
        | none => rw [ha] at h; exact absurd h (by simp)
        | some q =>
          obtain ⟨l2, modA⟩ := q
          rw [ha] at h
          cases modA with
          | true => exact ih _ _ (by simpa using h)
          | false =>
            simp only [if_neg (by simp : ¬ (false = true)), Option.some.injEq] at h
            subst h
            obtain ⟨hl1, hfb⟩ := doitAux_fixed hb
            obtain ⟨hl2, hfa⟩ := doitAux_fixed ha
            subst hl1; subst hl2
            exact ⟨hfb, hfa⟩

theorem findMove_none_before {r : List Metadata}
    (h : findMove r (fun m => m.before) (fun c i => decide (c < i)) aggMin
      = none) :
    ∀ (i k : Nat) (mi mk : Metadata), r[i]? = some mi → r[k]? = some mk →
      mk.name ∈ mi.before → i ≤ k := by
  intro i k mi mk hi hk hmem
  have hkc : k ∈ candidates r mi.before := by
    simpa [candidates] using candidatesFrom_mem r 0 k mk hk hmem
  have hne : candidates r mi.before ≠ [] := by
    intro hnil; rw [hnil] at hkc; simp at hkc
  obtain ⟨c, hc⟩ := Option.isSome_iff_exists.mp (aggMin_isSome hne)
  have hcmp := findMoveFrom_none r 0 h i mi hi c hc
  have hle := aggMin_le hc k hkc
  simp at hcmp
  omega

theorem findMove_none_after {r : List Metadata}
    (h : findMove r (fun m => m.after) (fun c i => decide (c > i)) aggMax
      = none) :
    ∀ (i k : Nat) (mi mk : Metadata), r[i]? = some mi → r[k]? = some mk →
      mk.name ∈ mi.after → k ≤ i := by
  intro i k mi mk hi hk hmem
  have hkc : k ∈ candidates r mi.after := by
    simpa [candidates] using candidatesFrom_mem r 0 k mk hk hmem
  have hne : candidates r mi.after ≠ [] := by
    intro hnil; rw [hnil] at hkc; simp at hkc
  obtain ⟨c, hc⟩ := Option.isSome_iff_exists.mp (aggMax_isSome hne)
  have hcmp := findMoveFrom_none r 0 h i mi hi c hc
  have hle := aggMax_ge hc k hkc
  simp at hcmp
  omega

/-- C1: if `buildSequence`'s constraint repair terminates without raising,
then in the repaired flat list every handler named in a handler's
`before` set sits at an index greater than or equal to that handler's
index, and every handler named in its `after` set sits at an index less
than or equal to it; a target name matching no handler imposes no
constraint (the quantification is vacuous for it) and causes no error. -/
theorem buildLoop_respects_constraints (l r : List Metadata)
    (h : buildLoop l = some r) (i k : Nat) (mi mk : Metadata)
    (hi : r[i]? = some mi) (hk : r[k]? = some mk) :
    (mk.name ∈ mi.before → i ≤ k) ∧ (mk.name ∈ mi.after → k ≤ i) := by
  obtain ⟨hb, ha⟩ := buildLoopAux_fixed 400 l r h
  exact ⟨fun hm => findMove_none_before hb i k mi mk hi hk hm,
    fun hm => findMove_none_after ha i k mi mk hi hk hm⟩

/-- Handler named `a` with no constraints (stage 0). -/
def wA : Metadata := ⟨"a", 0, 0, [], [], "pkg.modA.Plugin._a"⟩

/-- Handler named `b` that must run before `a`; the target `zzz` matches
no handler and is silently ignored. -/
def wB : Metadata := ⟨"b", 0, 0, ["a", "zzz"], [], "pkg.modB.Plugin._b"⟩

/-- Witness for C1 at a concrete input: the repaired list is `[wB, wA]`
and the `before` constraint of `wB` on `wA` is satisfied. -/
theorem buildLoop_respects_constraints_witness :
    (wA.name ∈ wB.before → (0 : Nat) ≤ 1) ∧ (wA.name ∈ wB.after → 1 ≤ 0) :=
  buildLoop_respects_constraints [wA, wB] [wB, wA] (by decide) 0 1 wB wA
    rfl rfl

/-- Handler named `a` declaring `before` on `b` (mutual cycle). -/
def loopA : Metadata := ⟨"a", 0, 0, ["b"], [], "pkg.modA.Plugin._a"⟩

/-- Handler named `b` declaring `before` on `a` (mutual cycle). -/
def loopB : Metadata := ⟨"b", 0, 0, ["a"], [], "pkg.modB.Plugin._b"⟩

/-- C3: the build fails with the loop-detection error whenever repair does
not stabilise within the 400-iteration bound: an exhausted `before`
sub-pass fails the build, an exhausted `after` sub-pass fails the build,
an outer alternation that is still modifying after 400 rounds fails the
build (zero fuel left), and in particular the two mutually-`before`
handlers `loopA`/`loopB` exhaust the `before` sub-pass, so
`buildSequence` raises. -/
theorem buildSequence_loop_detected :
    (∀ l, beforePass l = none → buildLoop l = none) ∧
    (∀ l l1, beforePass l = some (l1, false) → afterPass l1 = none →
      buildLoop l = none) ∧
    (∀ l, buildLoopAux 0 l = none) ∧
    (beforePass [loopA, loopB] = none ∧
      buildSequence [loopA, loopB] = none) := by
  refine ⟨?_, ?_, ?_, ?_, ?_⟩
  · intro l hb
    have key : ∀ fuel, buildLoopAux (fuel + 1) l = none := by
      intro fuel; simp [buildLoopAux, hb]
    simpa [buildLoop] using key 399
  · intro l l1 hb ha
    have key : ∀ fuel, buildLoopAux (fuel + 1) l = none := by
      intro fuel; simp [buildLoopAux, hb, ha]
    simpa [buildLoop] using key 399
  · intro l; simp [buildLoopAux]
  · decide
  · decide

/-- Witness for C3's conditional clauses, discharged at the concrete
mutually-constrained pair. -/
theorem buildSequence_loop_detected_witness :
    beforePass [loopA, loopB] = none ∧ buildLoop [loopA, loopB] = none :=
  ⟨by decide, buildSequence_loop_detected.1 [loopA, loopB] (by decide)⟩

theorem applyMove_perm_lt {l : List Metadata} {i c : Nat} {m : Metadata}
    (hci : c < i) (hi : l[i]? = some m) : (applyMove l i c 0 m).Perm l := by
  have hil : i < l.length := by
    rcases List.getElem?_eq_some.mp hi with ⟨h, _⟩
    exact h
  have hshift : (pyInsert (c + 0) m l)[i + 1]? = l[i]? :=
    pyInsert_getElem_shift m (c + 0) i l (by omega) (by omega)
  have hp1 : (pyInsert (c + 0) m l).Perm (m :: l) := pyInsert_perm m (c + 0) l
  have hp2 : (pyInsert (c + 0) m l).Perm
      (m :: (pyInsert (c + 0) m l).eraseIdx (i + 1)) :=
    eraseIdx_cons_perm _ (i + 1) m (by rw [hshift]; exact hi)
  have : (m :: (pyInsert (c + 0) m l).eraseIdx (i + 1)).Perm (m :: l) :=
    hp2.symm.trans hp1
  simpa [applyMove, if_pos hci] using this.cons_inv

theorem applyMove_perm_gt {l : List Metadata} {i c : Nat} {m : Metadata}
    (hic : i < c) (hi : l[i]? = some m) :
    (applyMove l i c 1 m).Perm l := by
  have hil : i < l.length := by
    rcases List.getElem?_eq_some.mp hi with ⟨h, _⟩
    exact h
  have hlt : (pyInsert (c + 1) m l)[i]? = l[i]? :=
    pyInsert_getElem_lt m (c + 1) i l (by omega) hil
  have hp1 : (pyInsert (c + 1) m l).Perm (m :: l) := pyInsert_perm m (c + 1) l
  have hp2 : (pyInsert (c + 1) m l).Perm
      (m :: (pyInsert (c + 1) m l).eraseIdx i) :=
    eraseIdx_cons_perm _ i m (by rw [hlt]; exact hi)
  have : (m :: (pyInsert (c + 1) m l).eraseIdx i).Perm (m :: l) :=
    hp2.symm.trans hp1
  simpa [applyMove, if_neg (by omega : ¬ c < i)] using this.cons_inv

theorem findMove_before_move_perm {l : List Metadata} {i c : Nat}
    {m : Metadata}
    (h : findMove l (fun m => m.before) (fun c i => decide (c < i)) aggMin
      = some (i, c, m)) :
    (applyMove l i c 0 m).Perm l := by
  obtain ⟨j, hj, hij, hagg, hcmp⟩ := findMoveFrom_some l 0 i c m h
  have hci : c < i := by simpa using hcmp
  have hi : l[i]? = some m := by
    have : i = j := by omega
    rw [this]; exact hj
  exact applyMove_perm_lt hci hi

theorem findMove_after_move_perm {l : List Metadata} {i c : Nat}
    {m : Metadata}
    (h : findMove l (fun m => m.after) (fun c i => decide (c > i)) aggMax
      = some (i, c, m)) :
    (applyMove l i c 1 m).Perm l := by
  obtain ⟨j, hj, hij, hagg, hcmp⟩ := findMoveFrom_some l 0 i c m h
  have hic : i < c := by simpa using hcmp
  have hi : l[i]? = some m := by
    have : i = j := by omega
    rw [this]; exact hj
  exact applyMove_perm_gt hic hi

theorem doitAux_perm {what : Metadata → List String} {cmp : Nat → Nat → Bool}
    {agg : List Nat → Option Nat} {offset : Nat}
    (hmv : ∀ (l : List Metadata) (i c : Nat) (m : Metadata),
      findMove l what cmp agg = some (i, c, m) →
      (applyMove l i c offset m).Perm l) :
    ∀ (fuel : Nat) (l : List Metadata) (ev : Bool) (l' : List Metadata)
      (ev' : Bool), doitAux what cmp agg offset fuel l ev = some (l', ev') →
      l'.Perm l := by
  intro fuel
  induction fuel with
  | zero => intro l ev l' ev' h; simp [doitAux] at h
  | succ fuel ih =>
    intro l ev l' ev' h
    cases hf : findMove l what cmp agg with
    | none =>
      simp only [doitAux, hf, Option.some.injEq, Prod.mk.injEq] at h
      rw [h.1]
    | some v =>
      obtain ⟨i, c, m⟩ := v
      simp only [doitAux, hf] at h
      exact (ih _ _ _ _ h).trans (hmv l i c m hf)

theorem buildLoopAux_perm :
    ∀ (fuel : Nat) (l r : List Metadata), buildLoopAux fuel l = some r →
      r.Perm l := by
  intro fuel
  induction fuel with
  | zero => intro l r h; simp [buildLoopAux] at h
  | succ fuel ih =>
    intro l r h
    cases hb : beforePass l with
    | none => simp [buildLoopAux, hb] at h
    | some p =>
      obtain ⟨l1, modB⟩ := p
      have hperm1 : l1.Perm l :=
        doitAux_perm (fun l2 i c m hf => findMove_before_move_perm hf) 400 l
          false l1 modB hb
      simp only [buildLoopAux, hb] at h
      cases modB with
      | true =>
        have hrec : buildLoopAux fuel l1 = some r := by simpa using h
        exact (ih _ _ hrec).trans hperm1
      | false =>
        simp only [if_neg (by simp : ¬ (false = true))] at h
        cases ha : afterPass l1 with
        | none => rw [ha] at h; exact absurd h (by simp)
        | some q =>
          obtain ⟨l2, modA⟩ := q
          have hperm2 : l2.Perm l1 :=
            doitAux_perm (fun l3 i c m hf => findMove_after_move_perm hf) 400
              l1 false l2 modA ha
          rw [ha] at h
          cases modA with
          | true =>
            have hrec : buildLoopAux fuel l2 = some r := by simpa using h
            exact (ih _ _ hrec).trans (hperm2.trans hperm1)
          | false =>
            simp only [if_neg (by simp : ¬ (false = true)),
              Option.some.injEq] at h
            subst h
            exact hperm2.trans hperm1

theorem addToBucket_join_perm :
    ∀ (acc : List (Nat × List Metadata)) (s : Nat) (m : Metadata),
      (((addToBucket acc s m).map Prod.snd).flatten).Perm
        ((acc.map Prod.snd).flatten ++ [m]) := by
  intro acc
  induction acc with
  | nil => intro s m; simp [addToBucket]
  | cons p rest ih =>
    intro s m
    obtain ⟨k, b⟩ := p
    by_cases hk : k = s
    · simp only [addToBucket, if_pos hk, List.map_cons, List.flatten_cons]
      rw [List.append_assoc b [m] ((rest.map Prod.snd).flatten),
        List.append_assoc b ((rest.map Prod.snd).flatten) [m]]
      exact List.Perm.append_left b List.perm_append_comm
    · simp only [addToBucket, if_neg hk, List.map_cons, List.flatten_cons]
      rw [List.append_assoc b ((rest.map Prod.snd).flatten) [m]]
      exact List.Perm.append_left b (ih s m)

theorem buildBuckets_join_perm (l : List Metadata) :
    (((buildBuckets l).map Prod.snd).flatten).Perm l := by
  have key : ∀ (ls : List Metadata) (acc : List (Nat × List Metadata)),
      (((ls.foldl (fun acc m => addToBucket acc m.stage m) acc).map
        Prod.snd).flatten).Perm ((acc.map Prod.snd).flatten ++ ls) := by
    intro ls
    induction ls with
    | nil => intro acc; simp
    | cons m t ih =>
      intro acc
      simp only [List.foldl_cons]
      have h1 := ih (addToBucket acc m.stage m)
      have h2 := addToBucket_join_perm acc m.stage m
      have h3 : (((addToBucket acc m.stage m).map Prod.snd).flatten ++ t).Perm
          (((acc.map Prod.snd).flatten ++ [m]) ++ t) := h2.append_right t
      have h4 : ((acc.map Prod.snd).flatten ++ [m]) ++ t
          = (acc.map Prod.snd).flatten ++ (m :: t) := by simp
      rw [h4] at h3
      exact h1.trans h3
  simpa [buildBuckets] using key l []

theorem addToBucket_stages :
    ∀ (acc : List (Nat × List Metadata)) (s : Nat) (m : Metadata),
      (∀ p ∈ acc, ∀ x ∈ p.2, x.stage = p.1) → m.stage = s →
      ∀ p ∈ addToBucket acc s m, ∀ x ∈ p.2, x.stage = p.1 := by
  intro acc
  induction acc with
  | nil =>
    intro s m _ hm p hp x hx
    simp only [addToBucket, List.mem_singleton] at hp
    subst hp
    simp only [List.mem_singleton] at hx
    subst hx
    simpa using hm
  | cons q rest ih =>
    intro s m hacc hm p hp x hx
    obtain ⟨k, b⟩ := q
    by_cases hk : k = s
    · simp only [addToBucket, if_pos hk] at hp
      rcases List.mem_cons.mp hp with hp | hp
      · subst hp
        rcases List.mem_append.mp hx with hx | hx
        · exact hacc (k, b) (by simp) x hx
        · simp only [List.mem_singleton] at hx
          subst hx
          simpa [hk] using hm
      · exact hacc _ (List.mem_cons_of_mem _ hp) x hx
    · simp only [addToBucket, if_neg hk] at hp
      rcases List.mem_cons.mp hp with hp | hp
      · subst hp; exact hacc _ (by simp) x hx
      · exact ih s m (fun p' hp' => hacc p' (List.mem_cons_of_mem _ hp')) hm
          p hp x hx

theorem buildBuckets_stages (l : List Metadata) :
    ∀ p ∈ buildBuckets l, ∀ x ∈ p.2, x.stage = p.1 := by
  have key : ∀ (ls : List Metadata) (acc : List (Nat × List Metadata)),
      (∀ p ∈ acc, ∀ x ∈ p.2, x.stage = p.1) →
      ∀ p ∈ ls.foldl (fun acc m => addToBucket acc m.stage m) acc,
        ∀ x ∈ p.2, x.stage = p.1 := by
    intro ls
    induction ls with
    | nil => intro acc h; simpa using h
    | cons m t ih =>
      intro acc h
      simp only [List.foldl_cons]
      exact ih _ (addToBucket_stages acc m.stage m h rfl)
  exact key l [] (by simp)

theorem pyInsertSorted_perm {α : Type} (le : α → α → Bool)
    (x : α) : ∀ (l : List α),
    (pyInsertSorted le x l).Perm (x :: l) := by
  intro l
  induction l with
  | nil => simp [pyInsertSorted]
  | cons y t ih =>
    by_cases hle : le x y
    · simp [pyInsertSorted, hle]
    · simp only [pyInsertSorted, if_neg hle]
      exact (ih.cons y).trans (List.Perm.swap x y t)

theorem pySort_perm {α : Type} (le : α → α → Bool) :
    ∀ (l : List α), (pySort le l).Perm l := by
  intro l
  induction l with
  | nil => simp [pySort]
  | cons x t ih =>
    exact (pyInsertSorted_perm le x (pySort le t)).trans (ih.cons x)

theorem initialOrder_perm (l : List Metadata) : (initialOrder l).Perm l :=
  (pySort_perm _ _).trans (pySort_perm _ l)

/-- C10: `buildSequence` never loses or duplicates a handler.  Each single
repair move of the `before` pass and of the `after` pass leaves the list
a permutation of its previous contents, and consequently the
concatenation of the per-stage lists of the built sequence is a
permutation of the full collected handler-metadata list, with every
record in exactly its declared stage's bucket. -/
theorem buildSequence_preserves_handlers (l : List Metadata)
    (bl : List (Nat × List Metadata)) (h : buildSequence l = some bl) :
    (∀ (l2 : List Metadata) (i c : Nat) (m : Metadata),
      findMove l2 (fun m => m.before) (fun c i => decide (c < i)) aggMin
        = some (i, c, m) → (applyMove l2 i c 0 m).Perm l2) ∧
    (∀ (l2 : List Metadata) (i c : Nat) (m : Metadata),
      findMove l2 (fun m => m.after) (fun c i => decide (c > i)) aggMax
        = some (i, c, m) → (applyMove l2 i c 1 m).Perm l2) ∧
    ((bl.map Prod.snd).flatten).Perm l ∧
    (∀ p ∈ bl, ∀ x ∈ p.2, x.stage = p.1) := by
  obtain ⟨r, hr, hbl⟩ := Option.map_eq_some'.mp h
  subst hbl
  refine ⟨fun l2 i c m hf => findMove_before_move_perm hf,
    fun l2 i c m hf => findMove_after_move_perm hf, ?_, buildBuckets_stages r⟩
  exact (buildBuckets_join_perm r).trans
    ((buildLoopAux_perm 400 _ _ hr).trans (initialOrder_perm l))

/-- Witness for C10 at a concrete input: both collected records appear
exactly once, in the single stage-0 bucket. -/
theorem buildSequence_preserves_handlers_witness :
    buildSequence [wA, wB] = some [(0, [wB, wA])] ∧
    (([(0, [wB, wA])].map Prod.snd).flatten).Perm [wA, wB] :=
  ⟨by decide,
    (buildSequence_preserves_handlers [wA, wB] [(0, [wB, wA])]
      (by decide)).2.2.1⟩

/-- A failure raised by a handler, a condition or a listener, as caught by
the `except Exception` of `Context._executeMethod`: either the
distinguished `Abort` exception or any other exception. -/
inductive Exc where
  | abort (msg : String)
  | fault (msg : String)
deriving DecidableEq, Repr

/-- `isinstance(e, Abort)`. -/
def isAbort : Exc → Bool
  | .abort _ => true
  | .fault _ => false

/-- The fields of the shared environment dictionary that the runner's
error protocol reads and writes: `BaseEnv.ERROR`, `BaseEnv.ABORTED` and
`BaseEnv.EXCEPTION_INFO`. -/
structure REnv where
  error : Bool
  aborted : Bool
  exceptionInfo : List Exc
deriving DecidableEq, Repr

/-- `Context.NOTIFY_ERROR` event code. -/
def NOTIFY_ERROR : Nat := 0

/-- A registered notification listener: receives the event code, may
mutate the environment and may itself raise. -/
abbrev Listener := Nat → REnv → REnv × Option Exc

/-- One entry of the built sequence as the runner sees it: the stage,
an identifying tag for the bound method, the bound `condition` (which may
mutate the environment and may raise) and the bound `method` (which
mutates the environment and may raise, leaving its mutations visible). -/
structure MethodInfo where
  stage : Nat
  id : Nat
  condition : REnv → REnv × Except Exc Bool
  method : REnv → REnv × Option Exc

/-- The error bookkeeping of `Context._executeMethod`'s `except` block:
set `ERROR`, append the captured record to `EXCEPTION_INFO`, and set
`ABORTED` when the exception is an `Abort`. -/
def recordError (env : REnv) (e : Exc) : REnv :=
  let env1 : REnv :=
    { env with error := true, exceptionInfo := env.exceptionInfo ++ [e] }
  if isAbort e then { env1 with aborted := true } else env1

/-- `Context.notify`: invoke every registered listener in order; a
listener that raises makes `notify` set `ERROR` and re-raise (the
returned exception propagates out of the caller). -/
def notify (ls : List Listener) (event : Nat) (env : REnv) :
    REnv × Option Exc :=
  match ls with
  | [] => (env, none)
  | n :: rest =>
    match n event env with
    | (env1, none) => notify rest event env1
    | (env1, some e) => ({ env1 with error := true }, some e)

/-- `Context._executeMethod`: evaluate the condition; when true invoke
the method; any exception from either is recorded via `recordError` and
the `ERROR` notification is dispatched.  The second component is an
exception propagating out of `_executeMethod` itself, which can only
originate from a raising listener. -/
def executeMethod (ls : List Listener) (m : MethodInfo) (env : REnv) :
    REnv × Option Exc :=
  match m.condition env with
  | (env1, .ok true) =>
    match m.method env1 with
    | (env2, none) => (env2, none)
    | (env2, some e) => notify ls NOTIFY_ERROR (recordError env2 e)
  | (env1, .ok false) => (env1, none)
  | (env1, .error e) => notify ls NOTIFY_ERROR (recordError env1 e)

/-- Sequential application of every listener's environment effect, in
registration order. -/
def notifyFold (ls : List Listener) (event : Nat) (env : REnv) : REnv :=
  ls.foldl (fun e n => (n event e).1) env

theorem notify_no_raise (event : Nat)
    (ls : List Listener) (hls : ∀ l ∈ ls, ∀ ev e, (l ev e).2 = none) :
    ∀ env, notify ls event env = (notifyFold ls event env, none) := by
  induction ls with
  | nil => intro env; simp [notify, notifyFold]
  | cons n rest ih =>
    intro env
    have hn := hls n (by simp) event env
    cases hv : n event env with
    | mk env1 exc =>
      rw [hv] at hn
      simp only at hn
      subst hn
      simp only [notify, hv]
      rw [ih (fun l hl => hls l (List.mem_cons_of_mem n hl)) env1]
      simp [notifyFold, hv]

theorem recordError_error (env : REnv) (e : Exc) :
    (recordError env e).error = true := by
  simp only [recordError]
  by_cases h : isAbort e <;> simp [h]

theorem recordError_info (env : REnv) (e : Exc) :
    (recordError env e).exceptionInfo = env.exceptionInfo ++ [e] := by
  simp only [recordError]
  by_cases h : isAbort e <;> simp [h]

theorem recordError_aborted (env : REnv) (e : Exc) :
    (isAbort e = true → (recordError env e).aborted = true) ∧
    (isAbort e = false → (recordError env e).aborted = env.aborted) := by
  constructor <;> intro h <;> simp [recordError, h]

/-- C4: when the handler's method raises, `_executeMethod` sets `ERROR`,
appends the captured record to `EXCEPTION_INFO`, sets `ABORTED` exactly
when the exception is an `Abort` (otherwise `ABORTED` is untouched), and
dispatches the `ERROR` notification to every registered listener in
order; the fault is captured, not propagated (no exception escapes the
invocation when no listener raises).  When the method raises nothing the
invocation machinery changes none of these fields and propagates
nothing. -/
theorem executeMethod_fault_protocol (ls : List Listener) (m : MethodInfo)
    (env env1 : REnv)
    (hls : ∀ l ∈ ls, ∀ ev e, (l ev e).2 = none)
    (hcond : m.condition env = (env1, Except.ok true)) :
    (∀ env2 e, m.method env1 = (env2, some e) →
      executeMethod ls m env
        = (notifyFold ls NOTIFY_ERROR (recordError env2 e), none) ∧
      (recordError env2 e).error = true ∧
      (recordError env2 e).exceptionInfo = env2.exceptionInfo ++ [e] ∧
      (isAbort e = true → (recordError env2 e).aborted = true) ∧
      (isAbort e = false → (recordError env2 e).aborted = env2.aborted)) ∧
    (∀ env2, m.method env1 = (env2, none) →
      executeMethod ls m env = (env2, none)) := by
  constructor
  · intro env2 e hm
    refine ⟨?_, recordError_error env2 e, recordError_info env2 e,
      (recordError_aborted env2 e).1, (recordError_aborted env2 e).2⟩
    simp only [executeMethod, hcond, hm]
    exact notify_no_raise NOTIFY_ERROR ls hls (recordError env2 e)
  · intro env2 hm
    simp [executeMethod, hcond, hm]

/-- A condition that always returns true without touching the
environment. -/
def condTrue : REnv → REnv × Except Exc Bool := fun env => (env, .ok true)

/-- A handler method raising a plain (non-`Abort`) exception. -/
def wFault : MethodInfo :=
  ⟨0, 0, condTrue, fun env => (env, some (.fault "boom"))⟩

/-- The initial runner environment: no error, no abort, no captured
exceptions. -/
def env0 : REnv := ⟨false, false, []⟩

/-- Witness for C4 with no listeners: the faulting method sets `ERROR`,
appends the record, leaves `ABORTED` false, and nothing propagates. -/
theorem executeMethod_fault_protocol_witness :
    (∀ env2 e, wFault.method env0 = (env2, some e) →
      executeMethod [] wFault env0
        = (notifyFold [] NOTIFY_ERROR (recordError env2 e), none) ∧
      (recordError env2 e).error = true ∧
      (recordError env2 e).exceptionInfo = env2.exceptionInfo ++ [e] ∧
      (isAbort e = true → (recordError env2 e).aborted = true) ∧
      (isAbort e = false → (recordError env2 e).aborted = env2.aborted)) ∧
    (∀ env2, wFault.method env0 = (env2, none) →
      executeMethod [] wFault env0 = (env2, none)) :=
  executeMethod_fault_protocol [] wFault env0 env0 (by simp) rfl

/-- C9: a condition that raises is treated exactly like a raising method
(`ERROR` set, record appended, `ABORTED` iff `Abort`, notification
dispatched, nothing propagates), while a condition that returns false
merely skips the handler: the machinery changes nothing beyond what the
condition itself did. -/
theorem executeMethod_condition_protocol (ls : List Listener)
    (m : MethodInfo) (env : REnv)
    (hls : ∀ l ∈ ls, ∀ ev e, (l ev e).2 = none) :
    (∀ env1 e, m.condition env = (env1, Except.error e) →
      executeMethod ls m env
        = (notifyFold ls NOTIFY_ERROR (recordError env1 e), none) ∧
      (recordError env1 e).error = true ∧
      (recordError env1 e).exceptionInfo = env1.exceptionInfo ++ [e] ∧
      (isAbort e = true → (recordError env1 e).aborted = true) ∧
      (isAbort e = false → (recordError env1 e).aborted = env1.aborted)) ∧
    (∀ env1, m.condition env = (env1, Except.ok false) →
      executeMethod ls m env = (env1, none)) := by
  constructor
  · intro env1 e hc
    refine ⟨?_, recordError_error env1 e, recordError_info env1 e,
      (recordError_aborted env1 e).1, (recordError_aborted env1 e).2⟩
    simp only [executeMethod, hc]
    exact notify_no_raise NOTIFY_ERROR ls hls (recordError env1 e)
  · intro env1 hc
    simp [executeMethod, hc]

/-- A handler whose condition raises an `Abort`. -/
def wCondAbort : MethodInfo :=
  ⟨0, 1, fun env => (env, .error (.abort "declined")),
    fun env => (env, none)⟩

/-- Witness for C9 with no listeners, at a handler whose condition raises
`Abort`. -/
theorem executeMethod_condition_protocol_witness :
    (∀ env1 e, wCondAbort.condition env0 = (env1, Except.error e) →
      executeMethod [] wCondAbort env0
        = (notifyFold [] NOTIFY_ERROR (recordError env1 e), none) ∧
      (recordError env1 e).error = true ∧
      (recordError env1 e).exceptionInfo = env1.exceptionInfo ++ [e] ∧
      (isAbort e = true → (recordError env1 e).aborted = true) ∧
      (isAbort e = false → (recordError env1 e).aborted = env1.aborted)) ∧
    (∀ env1, wCondAbort.condition env0 = (env1, Except.ok false) →
      executeMethod [] wCondAbort env0 = (env1, none)) :=
  executeMethod_condition_protocol [] wCondAbort env0 (by simp)

/-- Trace record of one `_executeMethod` call made by `runSequence`: the
stage, the invoked handler's tag, and the value of the `ERROR` flag at
the moment of invocation. -/
structure TraceEntry where
  stage : Nat
  id : Nat
  errBefore : Bool
deriving DecidableEq, Repr

/-- The inner `for methodinfo in self._sequence[stage]` loop of
`runSequence`: each handler is gated by
`not if_no_error or not ERROR`, executed via `_executeMethod`, and a
listener exception (third component) aborts the whole run.  The
environment-dump call after each handler does not modify the
environment and is modelled separately by `dumpEnvironment`. -/
def runMethods (ls : List Listener) (ifS : Nat → Bool) (stage : Nat) :
    List MethodInfo → REnv → REnv × List TraceEntry × Option Exc
  | [], env => (env, [], none)
  | m :: rest, env =>
    if !(ifS stage) || !env.error then
      match executeMethod ls m env with
      | (env1, none) =>
        let r := runMethods ls ifS stage rest env1
        (r.1, ⟨stage, m.id, env.error⟩ :: r.2.1, r.2.2)
      | (env1, some e) => (env1, [⟨stage, m.id, env.error⟩], some e)
    else
      runMethods ls ifS stage rest env

/-- The outer stage loop of `runSequence`: each stage is gated as a whole
by `not if_no_error or not ERROR` before its handlers run. -/
def runStages (ls : List Listener) (ifS : Nat → Bool) :
    List (Nat × List MethodInfo) → REnv →
    REnv × List TraceEntry × Option Exc
  | [], env => (env, [], none)
  | (stage, ms) :: rest, env =>
    if !(ifS stage) || !env.error then
      match runMethods ls ifS stage ms env with
      | (env1, tr, none) =>
        let r := runStages ls ifS rest env1
        (r.1, tr ++ r.2.1, r.2.2)
      | (env1, tr, some e) => (env1, tr, some e)
    else
      runStages ls ifS rest env

/-- How `runSequence` terminates: normal return, an exception raised to
the caller, or the generic `RuntimeError('Error during sequence')`. -/
inductive RunOutcome where
  | ok
  | raised (e : Exc)
  | errorDuringSequence
deriving DecidableEq, Repr

/-- The epilogue of `runSequence`: with `ERROR` set, re-raise the first
captured exception record, or the generic error when none was captured;
otherwise return normally. -/
def finishSequence (env : REnv) : RunOutcome :=
  if env.error then
    match env.exceptionInfo with
    | [] => .errorDuringSequence
    | e :: _ => .raised e
  else .ok

/-- `sorted(self._sequence.keys())`: iterate stages in ascending order of
their stage key. -/
def sortStages (bl : List (Nat × List MethodInfo)) :
    List (Nat × List MethodInfo) :=
  pySort (fun a b => decide (a.1 ≤ b.1)) bl

/-- `Context.runSequence`: run the stage-sorted sequence, then re-raise
the first captured exception (or the generic error) when `ERROR` is set;
a listener exception propagates directly. -/
def runSequence (ls : List Listener) (ifS : Nat → Bool)
    (bl : List (Nat × List MethodInfo)) (env : REnv) :
    REnv × List TraceEntry × RunOutcome :=
  match runStages ls ifS (sortStages bl) env with
  | (env1, tr, some e) => (env1, tr, .raised e)
  | (env1, tr, none) => (env1, tr, finishSequence env1)

/-- A method's condition and method never clear an already-set `ERROR`
flag (the spec's monotonicity invariant for handlers). -/
def methodMono (m : MethodInfo) : Prop :=
  (∀ env, env.error = true → ((m.condition env).1).error = true) ∧
  (∀ env, env.error = true → ((m.method env).1).error = true)

/-- A listener never clears an already-set `ERROR` flag. -/
def listenerMono (l : Listener) : Prop :=
  ∀ ev env, env.error = true → ((l ev env).1).error = true

theorem notify_mono {ls : List Listener} (hls : ∀ l ∈ ls, listenerMono l)
    (event : Nat) :
    ∀ env, env.error = true → ((notify ls event env).1).error = true := by
  induction ls with
  | nil => intro env h; simpa [notify] using h
  | cons n rest ih =>
    intro env h
    cases hv : n event env with
    | mk env1 exc =>
      cases exc with
      | none =>
        have h1 : env1.error = true := by
          have := hls n (by simp) event env h
          rw [hv] at this
          exact this
        simp only [notify, hv]
        exact ih (fun l hl => hls l (List.mem_cons_of_mem n hl)) env1 h1
      | some e => simp [notify, hv]

theorem executeMethod_mono {ls : List Listener} {m : MethodInfo}
    (hls : ∀ l ∈ ls, listenerMono l) (hm : methodMono m) :
    ∀ env, env.error = true →
      ((executeMethod ls m env).1).error = true := by
  intro env h
  cases hc : m.condition env with
  | mk env1 res =>
    have h1 : env1.error = true := by
      have := hm.1 env h
      rw [hc] at this
      exact this
    cases res with
    | ok b =>
      cases b with
      | true =>
        cases hv : m.method env1 with
        | mk env2 exc =>
          have h2 : env2.error = true := by
            have := hm.2 env1 h1
            rw [hv] at this
            exact this
          cases exc with
          | none => simpa [executeMethod, hc, hv] using h2
          | some e =>
            simp only [executeMethod, hc, hv]
            exact notify_mono hls NOTIFY_ERROR _ (recordError_error env2 e)
      | false => simpa [executeMethod, hc] using h1
    | error e =>
      simp only [executeMethod, hc]
      exact notify_mono hls NOTIFY_ERROR _ (recordError_error env1 e)

theorem runMethods_stage (ls : List Listener) (ifS : Nat → Bool)
    (stage : Nat) :
    ∀ (ms : List MethodInfo) (env : REnv),
      ∀ e ∈ (runMethods ls ifS stage ms env).2.1, e.stage = stage := by
  intro ms
  induction ms with
  | nil => intro env e he; simp [runMethods] at he
  | cons m rest ih =>
    intro env e he
    cases hgate : (!(ifS stage) || !env.error) with
    | true =>
      cases hx : executeMethod ls m env with
      | mk env1 exc =>
        cases exc with
        | none =>
          simp only [runMethods, hgate, hx, if_true] at he
          rcases List.mem_cons.mp he with he | he
          · subst he; rfl
          · exact ih env1 e he
        | some ex =>
          simp only [runMethods, hgate, hx, if_true] at he
          simp only [List.mem_singleton] at he
          subst he; rfl
    | false =>
      simp only [runMethods, hgate, Bool.false_eq_true, if_false] at he
      exact ih env e he

theorem runMethods_invariant (ls : List Listener) (ifS : Nat → Bool)
    (stage : Nat) (hls : ∀ l ∈ ls, listenerMono l) :
    ∀ (ms : List MethodInfo), (∀ m ∈ ms, methodMono m) → ∀ env : REnv,
      (env.error = true → (runMethods ls ifS stage ms env).1.error = true ∧
        ∀ e ∈ (runMethods ls ifS stage ms env).2.1, e.errBefore = true) ∧
      ((runMethods ls ifS stage ms env).2.1.Pairwise
        (fun a b => a.errBefore = true → b.errBefore = true)) ∧
      (∀ e ∈ (runMethods ls ifS stage ms env).2.1, e.errBefore = true →
        (runMethods ls ifS stage ms env).1.error = true) ∧
      (∀ e ∈ (runMethods ls ifS stage ms env).2.1, e.errBefore = true →
        ifS stage = false) := by
  intro ms
  induction ms with
  | nil =>
    intro _ env
    simp [runMethods]
  | cons m rest ih =>
    intro hm env
    have hmono := executeMethod_mono hls (hm m (by simp))
    have hrest : ∀ m0 ∈ rest, methodMono m0 :=
      fun m0 h0 => hm m0 (List.mem_cons_of_mem m h0)
    cases hgate : (!(ifS stage) || !env.error) with
    | false =>
      have hgf : ifS stage = true ∧ env.error = true := by
        constructor <;> revert hgate <;>
          cases ifS stage <;> cases he : env.error <;> simp
      simp only [runMethods, hgate, Bool.false_eq_true, if_false]
      exact ih hrest env
    | true =>
      cases hx : executeMethod ls m env with
      | mk env1 exc =>
        have hm1 : env.error = true → env1.error = true := by
          intro h
          have := hmono env h
          rw [hx] at this
          exact this
        have hgate' : env.error = true → ifS stage = false := by
          intro herr
          revert hgate
          rw [herr]
          cases ifS stage <;> simp
        cases exc with
        | none =>
          obtain ⟨ih1, ih2, ih3, ih4⟩ := ih hrest env1
          simp only [runMethods, hgate, hx, if_true]
          refine ⟨?_, ?_, ?_, ?_⟩
          · intro h
            obtain ⟨ha, hb⟩ := ih1 (hm1 h)
            refine ⟨ha, ?_⟩
            intro e he
            rcases List.mem_cons.mp he with he | he
            · subst he; exact h
            · exact hb e he
          · refine List.pairwise_cons.mpr ⟨?_, ih2⟩
            intro b hb hentry
            exact (ih1 (hm1 hentry)).2 b hb
          · intro e he herr
            rcases List.mem_cons.mp he with he | he
            · subst he; exact (ih1 (hm1 herr)).1
            · exact ih3 e he herr
          · intro e he herr
            rcases List.mem_cons.mp he with he | he
            · subst he; exact hgate' herr
            · exact ih4 e he herr
        | some ex =>
          simp only [runMethods, hgate, hx, if_true]
          refine ⟨?_, by simp, ?_, ?_⟩
          · intro h
            exact ⟨hm1 h, by intro e he; simp at he; subst he; exact h⟩
          · intro e he herr
            simp only [List.mem_singleton] at he
            subst he
            exact hm1 herr
          · intro e he herr
            simp only [List.mem_singleton] at he
            subst he
            exact hgate' herr

theorem runMethods_census (ls : List Listener) (ifS : Nat → Bool)
    (stage : Nat) (hstage : ifS stage = false) :
    ∀ (ms : List MethodInfo) (env : REnv),
      (runMethods ls ifS stage ms env).2.2 = none →
      ((runMethods ls ifS stage ms env).2.1.map (fun e => e.id))
        = ms.map (fun m => m.id) := by
  intro ms
  induction ms with
  | nil => intro env _; simp [runMethods]
  | cons m rest ih =>
    intro env hnone
    have hgate : (!(ifS stage) || !env.error) = true := by simp [hstage]
    cases hx : executeMethod ls m env with
    | mk env1 exc =>
      cases exc with
      | none =>
        simp only [runMethods, hgate, hx, if_true] at hnone ⊢
        simp only [List.map_cons, List.cons.injEq]
        exact ⟨trivial, ih env1 hnone⟩
      | some ex =>
        simp only [runMethods, hgate, hx, if_true] at hnone
        exact absurd hnone (by simp)

theorem runStages_invariant (ls : List Listener) (ifS : Nat → Bool)
    (hls : ∀ l ∈ ls, listenerMono l) :
    ∀ (seq : List (Nat × List MethodInfo)),
      (∀ p ∈ seq, ∀ m ∈ p.2, methodMono m) → ∀ env : REnv,
      (env.error = true → (runStages ls ifS seq env).1.error = true ∧
        ∀ e ∈ (runStages ls ifS seq env).2.1, e.errBefore = true) ∧
      ((runStages ls ifS seq env).2.1.Pairwise
        (fun a b => a.errBefore = true → b.errBefore = true)) ∧
      (∀ e ∈ (runStages ls ifS seq env).2.1, e.errBefore = true →
        (runStages ls ifS seq env).1.error = true) ∧
      (∀ e ∈ (runStages ls ifS seq env).2.1, e.errBefore = true →
        ifS e.stage = false) := by
  intro seq
  induction seq with
  | nil =>
    intro _ env
    simp [runStages]
  | cons p rest ih =>
    intro hm env
    obtain ⟨stage, ms⟩ := p
    have hmhead : ∀ m0 ∈ ms, methodMono m0 := fun m0 h0 => hm (stage, ms) (by simp) m0 h0
    have hrest : ∀ p0 ∈ rest, ∀ m0 ∈ p0.2, methodMono m0 :=
      fun p0 h0 => hm p0 (List.mem_cons_of_mem _ h0)
    obtain ⟨rm1, rm2, rm3, rm4⟩ :=
      runMethods_invariant ls ifS stage hls ms hmhead env
    have rmstage := runMethods_stage ls ifS stage ms env
    cases hgate : (!(ifS stage) || !env.error) with
    | false =>
      simp only [runStages, hgate, Bool.false_eq_true, if_false]
      exact ih hrest env
    | true =>
      cases hx : runMethods ls ifS stage ms env with
      | mk env1 p2 =>
        obtain ⟨tr, exc⟩ := p2
        rw [hx] at rm1 rm2 rm3 rm4 rmstage
        simp only at rm1 rm2 rm3 rm4 rmstage
        cases exc with
        | none =>
          obtain ⟨ih1, ih2, ih3, ih4⟩ := ih hrest env1
          simp only [runStages, hgate, hx, if_true]
          refine ⟨?_, ?_, ?_, ?_⟩
          · intro h
            obtain ⟨ha, hb⟩ := rm1 h
            obtain ⟨hc, hd⟩ := ih1 ha
            refine ⟨hc, ?_⟩
            intro e he
            rcases List.mem_append.mp he with he | he
            · exact hb e he
            · exact hd e he
          · refine List.pairwise_append.mpr ⟨rm2, ih2, ?_⟩
            intro a ha b hb haerr
            exact (ih1 (rm3 a ha haerr)).2 b hb
          · intro e he herr
            rcases List.mem_append.mp he with he | he
            · exact (ih1 (rm3 e he herr)).1
            · exact ih3 e he herr
          · intro e he herr
            rcases List.mem_append.mp he with he | he
            · rw [rmstage e he]
              exact rm4 e he herr
            · exact ih4 e he herr
        | some ex =>
          simp only [runStages, hgate, hx, if_true]
          refine ⟨?_, rm2, rm3, ?_⟩
          · intro h
            exact rm1 h
          · intro e he herr
            rw [rmstage e he]
            exact rm4 e he herr

theorem runStages_census (ls : List Listener) (ifS : Nat → Bool) :
    ∀ (seq : List (Nat × List MethodInfo)) (env : REnv),
      (runStages ls ifS seq env).2.2 = none →
      ∀ p ∈ seq, ifS p.1 = false → ∀ m ∈ p.2,
        ∃ e ∈ (runStages ls ifS seq env).2.1,
          e.stage = p.1 ∧ e.id = m.id := by
  intro seq
  induction seq with
  | nil => intro env _ p hp; simp at hp
  | cons q rest ih =>
    intro env hnone p hp hfalse m hm
    obtain ⟨stage, ms⟩ := q
    cases hgate : (!(ifS stage) || !env.error) with
    | false =>
      have hst : ifS stage = true := by
        revert hgate
        cases ifS stage <;> simp
      simp only [runStages, hgate, Bool.false_eq_true, if_false] at hnone ⊢
      rcases List.mem_cons.mp hp with hp | hp
      · rw [hp] at hfalse
        simp only at hfalse
        rw [hst] at hfalse
        exact absurd hfalse (by simp)
      · exact ih env hnone p hp hfalse m hm
    | true =>
      cases hx : runMethods ls ifS stage ms env with
      | mk env1 p2 =>
        obtain ⟨tr, exc⟩ := p2
        cases exc with
        | some ex =>
          simp only [runStages, hgate, hx, if_true] at hnone
          exact absurd hnone (by simp)
        | none =>
          simp only [runStages, hgate, hx, if_true] at hnone ⊢
          rcases List.mem_cons.mp hp with hp | hp
          · subst hp
            simp only at hfalse hm
            have hmap := runMethods_census ls ifS stage hfalse ms env (by rw [hx])
            rw [hx] at hmap
            simp only at hmap
            have hid : m.id ∈ tr.map (fun e => e.id) := by
              rw [hmap]
              exact List.mem_map_of_mem _ hm
            obtain ⟨e, he, heid⟩ := List.mem_map.mp hid
            have hes : e.stage = stage := by
              have := runMethods_stage ls ifS stage ms env e (by rw [hx]; exact he)
              exact this
            exact ⟨e, List.mem_append_left _ he, hes, heid⟩
          · obtain ⟨e, he, hes, heid⟩ := ih env1 hnone p hp hfalse m hm
            exact ⟨e, List.mem_append_right _ he, hes, heid⟩

/-- C2: under the invariant that handlers and listeners never clear the
`ERROR` flag, the runner's trace satisfies: every invocation made while
`ERROR` holds belongs to a stage whose `if-success` flag is false (so
once `ERROR` becomes true no `if-success` stage handler is invoked
afterwards, the flag being monotone along the trace), and when the run
completes without a listener exception every handler of every
`if-success`-false stage is still invoked. -/
theorem runSequence_error_gating (ls : List Listener) (ifS : Nat → Bool)
    (seq : List (Nat × List MethodInfo)) (env : REnv)
    (hls : ∀ l ∈ ls, listenerMono l)
    (hms : ∀ p ∈ seq, ∀ m ∈ p.2, methodMono m) :
    (∀ e ∈ (runStages ls ifS seq env).2.1, e.errBefore = true →
      ifS e.stage = false) ∧
    ((runStages ls ifS seq env).2.1.Pairwise
      (fun a b => a.errBefore = true → b.errBefore = true)) ∧
    ((runStages ls ifS seq env).2.2 = none →
      ∀ p ∈ seq, ifS p.1 = false → ∀ m ∈ p.2,
        ∃ e ∈ (runStages ls ifS seq env).2.1,
          e.stage = p.1 ∧ e.id = m.id) := by
  obtain ⟨h1, h2, h3, h4⟩ := runStages_invariant ls ifS hls seq hms env
  exact ⟨h4, h2, fun hnone => runStages_census ls ifS seq env hnone⟩

/-- Stage flags for the witness: only stage 1 is `if-success` gated. -/
def wIfS : Nat → Bool := fun s => s == 1

/-- A handler in gated stage 1 that does nothing. -/
def wGated : MethodInfo := ⟨1, 1, condTrue, fun env => (env, none)⟩

/-- A cleanup-style handler in non-gated stage 2. -/
def wCleanup : MethodInfo := ⟨2, 2, condTrue, fun env => (env, none)⟩

/-- Witness sequence: a faulting handler in stage 0, a gated handler in
stage 1, a cleanup handler in stage 2. -/
def wSeq : List (Nat × List MethodInfo) :=
  [(0, [wFault]), (1, [wGated]), (2, [wCleanup])]

/-- Witness for C2: after the stage-0 fault sets `ERROR`, the gated
stage-1 handler is skipped while the stage-2 cleanup handler still
runs. -/
theorem runSequence_error_gating_witness :
    (∀ e ∈ (runStages [] wIfS wSeq env0).2.1, e.errBefore = true →
      wIfS e.stage = false) ∧
    ((runStages [] wIfS wSeq env0).2.1.Pairwise
      (fun a b => a.errBefore = true → b.errBefore = true)) ∧
    ((runStages [] wIfS wSeq env0).2.2 = none →
      ∀ p ∈ wSeq, wIfS p.1 = false → ∀ m ∈ p.2,
        ∃ e ∈ (runStages [] wIfS wSeq env0).2.1,
          e.stage = p.1 ∧ e.id = m.id) :=
  runSequence_error_gating [] wIfS wSeq env0 (by simp)
    (by
      intro p hp m hm
      simp only [wSeq, List.mem_cons, List.not_mem_nil, or_false] at hp
      rcases hp with rfl | rfl | rfl <;>
        simp only [List.mem_singleton, List.not_mem_nil, or_false,
          List.mem_cons] at hm <;>
        subst hm <;>
        exact ⟨fun env h => h, fun env h => h⟩)

/-- C5: after the stage iteration completes (no listener exception), the
run raises exactly the first captured exception record when `ERROR` is
set and `EXCEPTION_INFO` is non-empty, raises the generic
`Error during sequence` failure when `ERROR` is set with no captured
record, and returns normally when `ERROR` is unset. -/
theorem runSequence_final_raise (ls : List Listener) (ifS : Nat → Bool)
    (bl : List (Nat × List MethodInfo)) (env env1 : REnv)
    (tr : List TraceEntry)
    (h : runStages ls ifS (sortStages bl) env = (env1, tr, none)) :
    (env1.error = false →
      runSequence ls ifS bl env = (env1, tr, RunOutcome.ok)) ∧
    (∀ e rest, env1.error = true → env1.exceptionInfo = e :: rest →
      runSequence ls ifS bl env = (env1, tr, RunOutcome.raised e)) ∧
    (env1.error = true → env1.exceptionInfo = [] →
      runSequence ls ifS bl env
        = (env1, tr, RunOutcome.errorDuringSequence)) := by
  refine ⟨?_, ?_, ?_⟩
  · intro herr
    simp [runSequence, h, finishSequence, herr]
  · intro e rest herr hinfo
    simp [runSequence, h, finishSequence, herr, hinfo]
  · intro herr hinfo
    simp [runSequence, h, finishSequence, herr, hinfo]

/-- Witness for C5: a single faulting handler; the run re-raises the
first (only) captured record. -/
theorem runSequence_final_raise_witness :
    runSequence [] wIfS [(0, [wFault])] env0
      = (⟨true, false, [Exc.fault "boom"]⟩, [⟨0, 0, false⟩],
        RunOutcome.raised (Exc.fault "boom")) :=
  (runSequence_final_raise [] wIfS [(0, [wFault])] env0
      ⟨true, false, [Exc.fault "boom"]⟩ [⟨0, 0, false⟩] rfl).2.1
    (Exc.fault "boom") [] rfl rfl

/-- `posixpath.isabs`: a path is absolute when it begins with the
separator. -/
def isabs (s : String) : Bool := s.data.head? == some '/'

/-- `posixpath.join` for two components: an absolute second component
replaces the first; otherwise the components are concatenated, adding a
separator unless the first is empty or already ends with one. -/
def pathJoin (a b : String) : String :=
  if isabs b then b
  else if (a == "") || (a.data.getLast? == some '/') then a ++ b
  else a ++ "/" ++ b

/-- `Context.resolveFile`: `None` for `None`, absolute paths unchanged,
otherwise `EXECUTION_DIRECTORY` joined with the path. -/
def resolveFile (dir : String) : Option String → Option String
  | none => none
  | some f => if isabs f then some f else some (pathJoin dir f)

/-- C7 counterexample: with the default `EXECUTION_DIRECTORY` value `"."`
the resolver is not idempotent: `resolveFile "a"` is `"./a"` but
resolving again yields `"././a"`. -/
theorem resolveFile_idempotence_fails :
    resolveFile "." (resolveFile "." (some "a"))
      ≠ resolveFile "." (some "a") := by decide

theorem isabs_append (a b : String) (h : isabs a = true) :
    isabs (a ++ b) = true := by
  simp only [isabs, beq_iff_eq] at h ⊢
  cases hd : a.data with
  | nil => rw [hd] at h; simp at h
  | cons c t =>
    rw [hd] at h
    simp only [List.head?_cons, Option.some.injEq] at h
    subst h
    have : (a ++ b).data = a.data ++ b.data := String.data_append a b
    rw [this, hd]
    simp

/-- C7 amended: `resolveFile` is idempotent for every path whenever
`EXECUTION_DIRECTORY` is an absolute path; for a relative directory such
as the default `"."` a relative path gains one `dir` component per
resolution, so idempotence fails there. -/
theorem resolveFile_idempotent_of_abs (dir : String)
    (hdir : isabs dir = true) :
    ∀ p : Option String,
      resolveFile dir (resolveFile dir p) = resolveFile dir p := by
  intro p
  cases p with
  | none => rfl
  | some f =>
    by_cases hf : isabs f
    · simp [resolveFile, hf]
    · have hcases : pathJoin dir f = dir ++ f
          ∨ pathJoin dir f = dir ++ "/" ++ f := by
        simp only [pathJoin, hf, Bool.false_eq_true, if_false]
        by_cases h2 : ((dir == "") || (dir.data.getLast? == some '/')) = true
        · rw [if_pos h2]; exact Or.inl rfl
        · rw [if_neg h2]; exact Or.inr rfl
      have habs : isabs (pathJoin dir f) = true := by
        rcases hcases with hc | hc
        · rw [hc]; exact isabs_append dir f hdir
        · rw [hc]; exact isabs_append (dir ++ "/") f (isabs_append dir "/" hdir)
      simp [resolveFile, hf, habs]

/-- Witness for C7's amended claim at an absolute execution directory. -/
theorem resolveFile_idempotent_of_abs_witness :
    isabs "/base" = true ∧
    resolveFile "/base" (resolveFile "/base" (some "a"))
      = resolveFile "/base" (some "a") :=
  ⟨by decide, resolveFile_idempotent_of_abs "/base" (by decide) (some "a")⟩

/-- `str.split(sep)` on the character list of a Python string. -/
def splitOnCharAux (sep : Char) : List Char → List Char → List String
  | [], acc => [String.mk acc.reverse]
  | c :: rest, acc =>
    if c = sep then
      String.mk acc.reverse :: splitOnCharAux sep rest []
    else splitOnCharAux sep rest (c :: acc)

/-- Python `s.split(sep)` for a one-character separator. -/
def splitOnChar (sep : Char) (s : String) : List String :=
  splitOnCharAux sep s.data []

/-- The local `mysplit` of `Context.loadPlugins`: split on `:` and drop
empty items. -/
def mysplit (s : String) : List String :=
  (splitOnChar ':' s).filter (fun i => i != "")

/-- `needgroups`: the set of requested plugin groups — the
`PLUGIN_GROUPS` items plus the always-added group `otopi`.  The Python
`set` is modelled as a deduplicated list. -/
def needGroups (pluginGroups : String) : List String :=
  let base := (mysplit pluginGroups).dedup
  if "otopi" ∈ base then base else base ++ ["otopi"]

/-- `loadedgroups`: for each `PLUGIN_PATH` root, the subdirectory names
found there (`fs` abstracts the `glob`/`isdir` filesystem scan of
`_loadPluginGroups`) that match a requested group, in scan order. -/
def loadedGroups (fs : String → List String) (pluginPath : String)
    (need : List String) : List String :=
  ((mysplit pluginPath).map fs).flatten.filter (fun g => decide (g ∈ need))

/-- `Context.loadPlugins`: raise (`Except.error`) when the requested and
loaded group sets differ; the raised message carries `needgroups` — the
full requested set. -/
def loadPlugins (fs : String → List String)
    (pluginGroups pluginPath : String) : Except (List String) Unit :=
  let need := needGroups pluginGroups
  let loaded := loadedGroups fs pluginPath need
  if need.all (fun g => decide (g ∈ loaded))
      && loaded.all (fun g => decide (g ∈ need)) then .ok ()
  else .error need

/-- The groups the claim says the error names: those requested but not
found under any root (spec wording). -/
def specMissingGroups (fs : String → List String)
    (pluginGroups pluginPath : String) : List String :=
  (needGroups pluginGroups).filter
    (fun g => decide (∀ root ∈ mysplit pluginPath, g ∉ fs root))

/-- Filesystem with a single root `/r` containing only the `otopi` group
directory. -/
def wFs : String → List String :=
  fun root => if root = "/r" then ["otopi"] else []

/-- C8 counterexample: requesting group `extra` (not on disk) raises, but
the error payload is the full requested set `[extra, otopi]`, not the
missing set `[extra]`. -/
theorem loadPlugins_message_not_missing :
    loadPlugins wFs "extra" "/r" = Except.error (needGroups "extra") ∧
    needGroups "extra" ≠ specMissingGroups wFs "extra" "/r" :=
  ⟨rfl, by decide⟩

theorem mem_loadedGroups (fs : String → List String) (pluginPath : String)
    (need : List String) (g : String) :
    g ∈ loadedGroups fs pluginPath need ↔
      g ∈ need ∧ ∃ root ∈ mysplit pluginPath, g ∈ fs root := by
  simp only [loadedGroups, List.mem_filter, List.mem_flatten, List.mem_map,
    decide_eq_true_eq]
  constructor
  · rintro ⟨⟨l, ⟨root, hroot, hl⟩, hg⟩, hneed⟩
    exact ⟨hneed, root, hroot, hl ▸ hg⟩
  · rintro ⟨hneed, root, hroot, hg⟩
    exact ⟨⟨fs root, ⟨root, hroot, rfl⟩, hg⟩, hneed⟩

/-- C8 amended: `loadPlugins` fails exactly when some requested group
(the `PLUGIN_GROUPS` items plus `otopi`) is not found as a subdirectory
under any `PLUGIN_PATH` root; the raised error names the full requested
group set, not only the missing groups. -/
theorem loadPlugins_missing_group (fs : String → List String)
    (pluginGroups pluginPath : String) :
    (loadPlugins fs pluginGroups pluginPath = Except.ok () ↔
      ∀ g ∈ needGroups pluginGroups,
        ∃ root ∈ mysplit pluginPath, g ∈ fs root) ∧
    (∀ e, loadPlugins fs pluginGroups pluginPath = Except.error e →
      e = needGroups pluginGroups ∧
      ∃ g ∈ needGroups pluginGroups,
        ∀ root ∈ mysplit pluginPath, g ∉ fs root) := by
  have hcond : (((needGroups pluginGroups).all (fun g =>
        decide (g ∈ loadedGroups fs pluginPath (needGroups pluginGroups))))
      && ((loadedGroups fs pluginPath (needGroups pluginGroups)).all
        (fun g => decide (g ∈ needGroups pluginGroups)))) = true ↔
      ∀ g ∈ needGroups pluginGroups,
        ∃ root ∈ mysplit pluginPath, g ∈ fs root := by
    rw [Bool.and_eq_true]
    constructor
    · rintro ⟨h1, _⟩ g hg
      have := List.all_eq_true.mp h1 g hg
      rw [decide_eq_true_eq] at this
      exact ((mem_loadedGroups fs pluginPath _ g).mp this).2
    · intro h
      refine ⟨List.all_eq_true.mpr ?_, List.all_eq_true.mpr ?_⟩
      · intro g hg
        rw [decide_eq_true_eq]
        exact (mem_loadedGroups fs pluginPath _ g).mpr ⟨hg, h g hg⟩
      · intro g hg
        rw [decide_eq_true_eq]
        exact ((mem_loadedGroups fs pluginPath _ g).mp hg).1
  constructor
  · rw [← hcond]
    constructor
    · intro h
      by_contra hcf
      have : loadPlugins fs pluginGroups pluginPath
          = Except.error (needGroups pluginGroups) := by
        simp only [loadPlugins]
        rw [if_neg hcf]
      rw [this] at h
      exact absurd h (by simp)
    · intro h
      simp only [loadPlugins]
      rw [if_pos h]
  · intro e he
    by_cases hc : (((needGroups pluginGroups).all (fun g =>
          decide (g ∈ loadedGroups fs pluginPath (needGroups pluginGroups))))
        && ((loadedGroups fs pluginPath (needGroups pluginGroups)).all
          (fun g => decide (g ∈ needGroups pluginGroups)))) = true
    · have : loadPlugins fs pluginGroups pluginPath = Except.ok () := by
        simp only [loadPlugins]
        rw [if_pos hc]
      rw [this] at he
      exact absurd he (by simp)
    · have hee : e = needGroups pluginGroups := by
        have : loadPlugins fs pluginGroups pluginPath
            = Except.error (needGroups pluginGroups) := by
          simp only [loadPlugins]
          rw [if_neg hc]
        rw [this] at he
        injection he with he
        exact he.symm
      refine ⟨hee, ?_⟩
      by_contra hno
      push_neg at hno
      have : ∀ g ∈ needGroups pluginGroups,
          ∃ root ∈ mysplit pluginPath, g ∈ fs root := by
        intro g hg
        obtain ⟨root, hroot, hmem⟩ := hno g hg
        exact ⟨root, hroot, hmem⟩
      exact hc (hcond.mpr this)

/-- Witness for C8's amended claim: the `extra` group is missing, the
error names the full requested set, and `otopi` alone loads cleanly. -/
theorem loadPlugins_missing_group_witness :
    (loadPlugins wFs "" "/r" = Except.ok () ↔
      ∀ g ∈ needGroups "",
        ∃ root ∈ mysplit "/r", g ∈ wFs root) ∧
    (∀ e, loadPlugins wFs "" "/r" = Except.error e →
      e = needGroups "" ∧
      ∃ g ∈ needGroups "",
        ∀ root ∈ mysplit "/r", g ∉ wFs root) :=
  loadPlugins_missing_group wFs "" "/r"

/-- A dynamically typed environment value as the dump displays it: the
Python type name (`type(value).__name__`) and its stringification.
Modelled from the spec: `common.toStr` (module `common` is not among the
sources here) is the display stringification of a value; only the
displayed string and the type name are observable in the dump. -/
structure DumpVal where
  typeName : String
  str : String
deriving DecidableEq, Repr

/-- Dictionary lookup on the current environment. -/
def lookupVal (env : List (String × DumpVal)) (k : String) :
    Option DumpVal :=
  (env.find? (fun p => p.1 == k)).map (fun p => p.2)

/-- Dictionary `get` on the stringified snapshot. -/
def lookupStr (old : List (String × String)) (k : String) : Option String :=
  (old.find? (fun p => p.1 == k)).map (fun p => p.2)

/-- Modelled from the spec: `common.toStr` applied to `old.get(key)`;
a missing snapshot entry yields Python `None`, whose stringification is
the string `None`. -/
def toStrOpt : Option String → String
  | none => "None"
  | some s => s

/-- `sorted(self.environment.keys())`. -/
def sortedKeys (env : List (String × DumpVal)) : List String :=
  pySort strLe (env.map Prod.fst)

/-- `Context.dumpEnvironment`: iterate the current environment's keys in
sorted order; log each key whose stringified value differs from the
snapshot (every key when there is no snapshot); replace the displayed
value of keys in `SUPPRESS_ENVIRONMENT_KEYS` (passed as `suppress`) by
`***`.  Returns the logged `ENV key=type:value` lines as
(key, type name, displayed value) triples. -/
def dumpEnvironment (env : List (String × DumpVal)) (suppress : List String)
    (old : Option (List (String × String))) :
    List (String × String × String) :=
  (sortedKeys env).filterMap (fun k =>
    match lookupVal env k with
    | none => none
    | some v =>
      match old with
      | none => some (k, v.typeName, if k ∈ suppress then "***" else v.str)
      | some o =>
        if v.str ≠ toStrOpt (lookupStr o k) then
          some (k, v.typeName, if k ∈ suppress then "***" else v.str)
        else none)

/-- The stringified view of a current environment, for comparison with a
snapshot. -/
def envStrs (env : List (String × DumpVal)) : List (String × String) :=
  env.map (fun p => (p.1, p.2.str))

/-- The claim's reading of the diff: the symmetric difference of
stringified values restricted to changed keys — keys newly present or
changed (first part) plus keys removed from the environment (second
part). -/
def specDiffKeys (old new : List (String × String)) : List String :=
  ((new.map Prod.fst).filter
    (fun k => decide (lookupStr old k ≠ lookupStr new k)))
    ++ ((old.map Prod.fst).filter (fun k => decide (lookupStr new k = none)))

/-- C6 counterexample: a key removed from the environment is in the
symmetric difference but is never logged, because the dump iterates only
the current environment's keys. -/
theorem dumpEnvironment_not_symmDiff :
    (dumpEnvironment [] [] (some [("k", "v")])).map (fun e => e.1)
      ≠ specDiffKeys [("k", "v")] (envStrs []) := by decide

theorem lookupVal_mem {env : List (String × DumpVal)} {k : String}
    {v : DumpVal} (h : lookupVal env k = some v) : k ∈ env.map Prod.fst := by
  simp only [lookupVal, Option.map_eq_some'] at h
  obtain ⟨p, hp, _⟩ := h
  have hmem := List.mem_of_find?_eq_some hp
  have hk := List.find?_some hp
  rw [beq_iff_eq] at hk
  subst hk
  exact List.mem_map_of_mem Prod.fst hmem

theorem mem_lookupVal {env : List (String × DumpVal)} {k : String}
    (h : k ∈ env.map Prod.fst) : ∃ v, lookupVal env k = some v := by
  induction env with
  | nil => simp at h
  | cons p rest ih =>
    by_cases hp : p.1 = k
    · exact ⟨p.2, by simp [lookupVal, List.find?_cons, hp]⟩
    · have hk : k ∈ rest.map Prod.fst := by
        simp only [List.map_cons, List.mem_cons] at h
        rcases h with h | h
        · exact absurd h.symm hp
        · exact h
      obtain ⟨v, hv⟩ := ih hk
      refine ⟨v, ?_⟩
      simp only [lookupVal, List.find?_cons] at hv ⊢
      have : (p.1 == k) = false := by
        rw [beq_eq_false_iff_ne]
        exact hp
      rw [this]
      exact hv

theorem mem_sortedKeys {env : List (String × DumpVal)} {k : String} :
    k ∈ sortedKeys env ↔ k ∈ env.map Prod.fst :=
  (pySort_perm strLe (env.map Prod.fst)).mem_iff

/-- C6 amended: the keys logged by the environment diff are exactly the
keys of the current (post-invocation) environment whose stringified
value differs from the stringification of the snapshot's entry (a
missing snapshot entry stringifying as `None`); keys removed from the
environment are never logged; every logged line carries the key's type
name and its value, the latter replaced by `***` when the key is in the
suppression list. -/
theorem dumpEnvironment_logged_keys (env : List (String × DumpVal))
    (suppress : List String) (old : List (String × String)) :
    (∀ k, k ∈ (dumpEnvironment env suppress (some old)).map (fun e => e.1)
      ↔ ∃ v, lookupVal env k = some v ∧ v.str ≠ toStrOpt (lookupStr old k)) ∧
    (∀ e ∈ dumpEnvironment env suppress (some old),
      ∃ v, lookupVal env e.1 = some v ∧ e.2.1 = v.typeName ∧
        e.2.2 = (if e.1 ∈ suppress then "***" else v.str) ∧
        v.str ≠ toStrOpt (lookupStr old e.1)) ∧
    (∀ k, lookupVal env k = none →
      k ∉ (dumpEnvironment env suppress (some old)).map (fun e => e.1)) := by
  have hf : ∀ (a : String) (e : String × String × String),
      (fun k => match lookupVal env k with
        | none => none
        | some v =>
          if v.str ≠ toStrOpt (lookupStr old k) then
            some (k, v.typeName, if k ∈ suppress then "***" else v.str)
          else none) a = some e →
      e.1 = a ∧ ∃ v, lookupVal env a = some v ∧ e.2.1 = v.typeName ∧
        e.2.2 = (if a ∈ suppress then "***" else v.str) ∧
        v.str ≠ toStrOpt (lookupStr old a) := by
    intro a e h
    simp only at h
    cases hv : lookupVal env a with
    | none => rw [hv] at h; simp at h
    | some v =>
      rw [hv] at h
      replace h : (if v.str ≠ toStrOpt (lookupStr old a) then
          some (a, v.typeName, if a ∈ suppress then "***" else v.str)
        else none) = some e := h
      by_cases hne : v.str ≠ toStrOpt (lookupStr old a)
      · rw [if_pos hne] at h
        injection h with h
        subst h
        exact ⟨rfl, v, rfl, rfl, rfl, hne⟩
      · rw [if_neg hne] at h
        exact absurd h (by simp)
  have hmain : ∀ e ∈ dumpEnvironment env suppress (some old),
      ∃ v, lookupVal env e.1 = some v ∧ e.2.1 = v.typeName ∧
        e.2.2 = (if e.1 ∈ suppress then "***" else v.str) ∧
        v.str ≠ toStrOpt (lookupStr old e.1) := by
    intro e he
    simp only [dumpEnvironment, List.mem_filterMap] at he
    obtain ⟨a, _, ha⟩ := he
    obtain ⟨hea, hv⟩ := hf a e ha
    rw [hea]
    exact hv
  have hiff : ∀ k,
      k ∈ (dumpEnvironment env suppress (some old)).map (fun e => e.1)
      ↔ ∃ v, lookupVal env k = some v
          ∧ v.str ≠ toStrOpt (lookupStr old k) := by
    intro k
    constructor
    · intro h
      obtain ⟨e, he, hek⟩ := List.mem_map.mp h
      obtain ⟨v, hv, _, _, hne⟩ := hmain e he
      rw [hek] at hv hne
      exact ⟨v, hv, hne⟩
    · rintro ⟨v, hv, hne⟩
      have hkeys : k ∈ sortedKeys env := mem_sortedKeys.mpr (lookupVal_mem hv)
      refine List.mem_map.mpr
        ⟨(k, v.typeName, if k ∈ suppress then "***" else v.str), ?_, rfl⟩
      refine List.mem_filterMap.mpr ⟨k, hkeys, ?_⟩
      simp only [hv]
      rw [if_pos hne]
  refine ⟨hiff, hmain, ?_⟩
  intro k hnone h
  obtain ⟨v, hv, _⟩ := (hiff k).mp h
  rw [hnone] at hv
  exact absurd hv (by simp)

/-- Witness for C6's amended claim at a concrete dump: key `p` changed
and suppressed (logged as `***`), key `q` unchanged (not logged), key
`r` removed (not logged), key `s` newly present (logged). -/
theorem dumpEnvironment_logged_keys_witness :
    (∀ k, k ∈ (dumpEnvironment
        [("p", ⟨"str", "hunter2"⟩), ("q", ⟨"int", "1"⟩),
          ("s", ⟨"bool", "True"⟩)] ["p"]
        (some [("p", "old"), ("q", "1"), ("r", "gone")])).map (fun e => e.1)
      ↔ ∃ v, lookupVal [("p", ⟨"str", "hunter2"⟩), ("q", ⟨"int", "1"⟩),
          ("s", ⟨"bool", "True"⟩)] k = some v ∧
          v.str ≠ toStrOpt (lookupStr
            [("p", "old"), ("q", "1"), ("r", "gone")] k)) ∧
    (∀ e ∈ dumpEnvironment
        [("p", ⟨"str", "hunter2"⟩), ("q", ⟨"int", "1"⟩),
          ("s", ⟨"bool", "True"⟩)] ["p"]
        (some [("p", "old"), ("q", "1"), ("r", "gone")]),
      ∃ v, lookupVal [("p", ⟨"str", "hunter2"⟩), ("q", ⟨"int", "1"⟩),
          ("s", ⟨"bool", "True"⟩)] e.1 = some v ∧ e.2.1 = v.typeName ∧
        e.2.2 = (if e.1 ∈ ["p"] then "***" else v.str) ∧
        v.str ≠ toStrOpt (lookupStr
          [("p", "old"), ("q", "1"), ("r", "gone")] e.1)) ∧
    (∀ k, lookupVal [("p", ⟨"str", "hunter2"⟩), ("q", ⟨"int", "1"⟩),
        ("s", ⟨"bool", "True"⟩)] k = none →
      k ∉ (dumpEnvironment
        [("p", ⟨"str", "hunter2"⟩), ("q", ⟨"int", "1"⟩),
          ("s", ⟨"bool", "True"⟩)] ["p"]
        (some [("p", "old"), ("q", "1"), ("r", "gone")])).map
          (fun e => e.1)) :=
  dumpEnvironment_logged_keys
    [("p", ⟨"str", "hunter2"⟩), ("q", ⟨"int", "1"⟩), ("s", ⟨"bool", "True"⟩)]
    ["p"] [("p", "old"), ("q", "1"), ("r", "gone")]

end Otopi
